import Mathlib

/-!
Verification development for the load-stepping driver of
`demo/beam/beam_static.py` (geometrically exact beam, displacement-based).

The script builds a UFL weak form for a curved beam, then drives a
load-stepping loop: for each factor in `np.linspace(0, 1, num=200 + 1)` it
sets the shared load-factor constant μ, rebuilds the boundary-condition
list, calls the external SNES solve, asserts a positive converged reason,
and prints scalar diagnostics assembled from UFL expressions.

We embed: the `np.linspace` sequence over ℚ, the script's constants, a small
AST for the UFL scalar expressions the script builds (with abstract
interpretations for sqrt/sin/cos), quadrature-sum assembly for the
`assemble_scalar` diagnostics, and the loop itself as a recursive function
producing an event trace.  Floating-point constants are modelled as exact
rationals; the float value of `np.pi` is an (arbitrary) rational parameter
`pi` wherever it occurs.
-/

/-- Numpy semantics of `np.linspace a b num` with `endpoint=True`: `num` samples
`a + i * (b - a) / (num - 1)`; for `num = 1` numpy returns `[a]`,
for `num = 0` the empty array. -/
def linspace (a b : ℚ) (num : ℕ) : List ℚ :=
  if num = 0 then []
  else if num = 1 then [a]
  else (List.range num).map (fun i : ℕ => a + (i : ℚ) * (b - a) / ((num : ℚ) - 1))

theorem linspace_length (a b : ℚ) (num : ℕ) : (linspace a b num).length = num := by
  unfold linspace
  split
  · simp [*]
  · split
    · simp [*]
    · simp

theorem linspace_two_le (a b : ℚ) {num : ℕ} (h : 2 ≤ num) :
    linspace a b num
      = (List.range num).map (fun i : ℕ => a + (i : ℚ) * (b - a) / ((num : ℚ) - 1)) := by
  unfold linspace
  have h0 : num ≠ 0 := by omega
  have h1 : num ≠ 1 := by omega
  simp [h0, h1]

theorem linspace_one (a b : ℚ) : linspace a b 1 = [a] := by
  unfold linspace
  simp

/-- The step denominator is positive once `2 ≤ num`. -/
theorem linspace_den_pos {num : ℕ} (h : 2 ≤ num) : (0 : ℚ) < (num : ℚ) - 1 := by
  have : (2 : ℚ) ≤ (num : ℚ) := by exact_mod_cast h
  linarith

/-- The sequence `linspace 0 1 num` is strictly increasing. -/
theorem linspace01_pairwise_lt (num : ℕ) :
    (linspace 0 1 num).Pairwise (· < ·) := by
  rcases Nat.lt_or_ge num 2 with h | h
  · interval_cases num <;> simp [linspace]
  · rw [linspace_two_le 0 1 h]
    have hden := linspace_den_pos h
    refine List.Pairwise.map _ ?_ (List.pairwise_lt_range num)
    intro i j hij
    simp only [zero_add, sub_zero, mul_one]
    rw [div_lt_div_iff_of_pos_right hden]
    exact_mod_cast hij

/-- Every value of `linspace 0 1 num` lies in `[0, 1]`. -/
theorem linspace01_mem_bounds (num : ℕ) :
    ∀ x ∈ linspace 0 1 num, 0 ≤ x ∧ x ≤ 1 := by
  rcases Nat.lt_or_ge num 2 with h | h
  · interval_cases num <;> simp [linspace]
  · rw [linspace_two_le 0 1 h]
    have hden := linspace_den_pos h
    intro x hx
    simp only [List.mem_map, List.mem_range] at hx
    obtain ⟨i, hi, rfl⟩ := hx
    have hi' : (i : ℚ) ≤ (num : ℚ) - 1 := by
      have : (i : ℚ) + 1 ≤ (num : ℚ) := by exact_mod_cast hi
      linarith
    simp only [zero_add, sub_zero, mul_one]
    constructor
    · exact div_nonneg (by positivity) (le_of_lt hden)
    · exact (div_le_one hden).mpr hi'

/-- The value `0` is attained (when the sequence is nonempty). -/
theorem linspace01_zero_mem {num : ℕ} (h : 1 ≤ num) :
    (0 : ℚ) ∈ linspace 0 1 num := by
  rcases Nat.lt_or_ge num 2 with h2 | h2
  · interval_cases num
    simp [linspace]
  · rw [linspace_two_le 0 1 h2]
    refine List.mem_map.mpr ⟨0, ?_, by norm_num⟩
    simp only [List.mem_range]
    omega

/-- The value `1` is attained once there are at least two samples. -/
theorem linspace01_one_mem {num : ℕ} (h : 2 ≤ num) :
    (1 : ℚ) ∈ linspace 0 1 num := by
  rw [linspace_two_le 0 1 h]
  have hden := linspace_den_pos h
  have hne : ((num : ℚ) - 1) ≠ 0 := ne_of_gt hden
  refine List.mem_map.mpr ⟨num - 1, ?_, ?_⟩
  · simp only [List.mem_range]; omega
  · have hc : ((num - 1 : ℕ) : ℚ) = (num : ℚ) - 1 := by
      rw [Nat.cast_sub (by omega : 1 ≤ num)]
      norm_num
    rw [hc]
    field_simp

/-- Consecutive samples of `linspace 0 1 num` differ by exactly
`1 / (num - 1)`: the sequence is equally spaced. -/
theorem linspace01_equally_spaced (num : ℕ) (h : 2 ≤ num) :
    (linspace 0 1 num).Chain' (fun x y => y = x + 1 / ((num : ℚ) - 1)) := by
  rw [linspace_two_le 0 1 h, List.chain'_map]
  obtain ⟨m, rfl⟩ : ∃ m, num = m + 1 := ⟨num - 1, by omega⟩
  refine (List.chain'_range_succ _ m).mpr ?_
  intro i _
  push_cast
  ring

/-! Structure material and load parameters (`beam_static.py` lines 23, 55-70,
141, 144).  Float literals are exact rationals; `pi` stands for the float
value of `np.pi` and is kept as a parameter. -/

def L : ℚ := 1

def E : ℚ := 100000000

def G : ℚ := E / 2

def A : ℚ := 1 / 10000

def I : ℚ := 1 / 1000000

def EA : ℚ := E * A

def EI : ℚ := E * I

def GA : ℚ := G * A

def p_1 : ℚ := 1 * 0

def p_3 : ℚ := 1 * 0

def m_2 : ℚ := 1 * 0

def F_1 (pi : ℚ) : ℚ := (2 * pi / L) ^ 2 * EI * 0

def F_3 (pi : ℚ) : ℚ := (1 / 2 * pi / L) ^ 2 * EI * 0

def M_2 (pi : ℚ) : ℚ := (2 * pi / L) ^ 1 * EI * 0

/-- Weak form of lines 170-172, at the level of assembled scalar
contributions: the three internal-energy terms `-δe·N dx`, `-δg·T dx`,
`-δk·M dx` enter with their assembled values `δeN δgT δkM`, and the μ-scaled
load terms multiply the assembled test-function integrals `∫δu dx`, …,
`∫δu ds(end)`, … by the load amplitude constants. -/
def weakForm (pi μv δeN δgT δkM δu_dx δw_dx δr_dx δu_ds δw_ds δr_ds : ℚ) : ℚ :=
  - δeN - δgT - δkM
    + μv * (δu_dx * p_1 + δw_dx * p_3 + δr_dx * m_2)
    + μv * (δu_ds * F_1 pi + δw_ds * F_3 pi + δr_ds * M_2 pi)

/-! A small AST for the scalar UFL expressions the script builds.  State
fields `u w r` and their arc-length derivatives `GRAD(u) …` are atoms, as
are the geometric quantities `GRAD(x0[i])` and the curvature-tensor entry
`B0[0,0]`; `sqrt/sin/cos` are interpreted by abstract functions. -/

inductive SVar where
  | u
  | w
  | r

inductive GAtom where
  | gx0 (i : Fin 3)
  | curvB0

inductive UExpr where
  | const (c : ℚ)
  | muE
  | geom (g : GAtom)
  | sVar (v : SVar)
  | sGrad (v : SVar)
  | add (a b : UExpr)
  | sub (a b : UExpr)
  | mul (a b : UExpr)
  | divE (a b : UExpr)
  | neg (a : UExpr)
  | sqrtE (a : UExpr)
  | sinE (a : UExpr)
  | cosE (a : UExpr)

/-- Interpretations of the nonlinear scalar functions appearing in the
forms. -/
structure Interp where
  sqrtI : ℚ → ℚ
  sinI : ℚ → ℚ
  cosI : ℚ → ℚ

/-- Pointwise evaluation environment: geometric data, state values and
state derivatives at a quadrature point, and the load factor μ. -/
structure PtEnv where
  gx0 : Fin 3 → ℚ
  b0 : ℚ
  uv : ℚ
  wv : ℚ
  rv : ℚ
  duv : ℚ
  dwv : ℚ
  drv : ℚ
  muv : ℚ

def evalE (itp : Interp) (env : PtEnv) : UExpr → ℚ
  | .const c => c
  | .muE => env.muv
  | .geom (.gx0 i) => env.gx0 i
  | .geom .curvB0 => env.b0
  | .sVar .u => env.uv
  | .sVar .w => env.wv
  | .sVar .r => env.rv
  | .sGrad .u => env.duv
  | .sGrad .w => env.dwv
  | .sGrad .r => env.drv
  | .add a b => evalE itp env a + evalE itp env b
  | .sub a b => evalE itp env a - evalE itp env b
  | .mul a b => evalE itp env a * evalE itp env b
  | .divE a b => evalE itp env a / evalE itp env b
  | .neg a => - evalE itp env a
  | .sqrtE a => itp.sqrtI (evalE itp env a)
  | .sinE a => itp.sinI (evalE itp env a)
  | .cosE a => itp.cosI (evalE itp env a)

/-- Whether an expression mentions the solution state `u, w, r` (values or
derivatives). -/
def usesState : UExpr → Bool
  | .const _ => false
  | .muE => false
  | .geom _ => false
  | .sVar _ => true
  | .sGrad _ => true
  | .add a b | .sub a b | .mul a b | .divE a b => usesState a || usesState b
  | .neg a | .sqrtE a | .sinE a | .cosE a => usesState a

/-- Whether an expression mentions the load factor μ. -/
def usesMu : UExpr → Bool
  | .const _ => false
  | .muE => true
  | .geom _ => false
  | .sVar _ => false
  | .sGrad _ => false
  | .add a b | .sub a b | .mul a b | .divE a b => usesMu a || usesMu b
  | .neg a | .sqrtE a | .sinE a | .cosE a => usesMu a

/-- Whether an expression mentions the geometric curvature-tensor atom
`B0[0,0]` of line 120. -/
def usesB0 : UExpr → Bool
  | .const _ => false
  | .muE => false
  | .geom (.gx0 _) => false
  | .geom .curvB0 => true
  | .sVar _ => false
  | .sGrad _ => false
  | .add a b | .sub a b | .mul a b | .divE a b => usesB0 a || usesB0 b
  | .neg a | .sqrtE a | .sinE a | .cosE a => usesB0 a

def sqE (a : UExpr) : UExpr := .mul a a

def gx00 : UExpr := .geom (.gx0 0)

def gx01 : UExpr := .geom (.gx0 1)

def gx02 : UExpr := .geom (.gx0 2)

/-- Stretch `λs` (lines 131-132):
`(1 + GRAD(x0[0])·GRAD(u) + GRAD(x0[2])·GRAD(w))·cos(r)
 + (GRAD(x0[2])·GRAD(u) - GRAD(x0[0])·GRAD(w))·sin(r)`. -/
def lamsE : UExpr :=
  .add
    (.mul (.add (.add (.const 1) (.mul gx00 (.sGrad .u))) (.mul gx02 (.sGrad .w)))
      (.cosE (.sVar .r)))
    (.mul (.sub (.mul gx02 (.sGrad .u)) (.mul gx00 (.sGrad .w)))
      (.sinE (.sVar .r)))

/-- Stretch `λξ` (lines 133-134). -/
def lamξE : UExpr :=
  .sub
    (.mul (.add (.add (.const 1) (.mul gx00 (.sGrad .u))) (.mul gx02 (.sGrad .w)))
      (.sinE (.sVar .r)))
    (.mul (.sub (.mul gx02 (.sGrad .u)) (.mul gx00 (.sGrad .w)))
      (.cosE (.sVar .r)))

/-- Undeformed stretch `λ0 = sqrt(dot(GRAD(x0), GRAD(x0)))` (line 136) —
defined purely from the undeformed geometry. -/
def lam0E : UExpr := .sqrtE (.add (.add (sqE gx00) (sqE gx01)) (sqE gx02))

/-- Curvature `κ = -GRAD(r)` (line 140). -/
def κE : UExpr := .neg (.sGrad .r)

/-- Geometrically derived undeformed curvature `κ0 = -B0[0,0]` (line 122,
flagged `TODO: check use of sign`).  This binding is overwritten at line
141 before the weak form is built. -/
def κ0geomE : UExpr := .neg (.geom .curvB0)

/-- Final binding of `κ0`: the constant `-2·π` (line 141). -/
def κ0E (pi : ℚ) : UExpr := .const (-2 * pi)

/-- Prescribed axial stretch `λp = 2/5` (line 144). -/
def lampE : UExpr := .const (2 / 5)

/-- Prescribed strain `ep = μ * 1 / 2 * (λp**2 - λ0**2) * 0` (line 145). -/
def epE : UExpr :=
  .mul (.mul (.divE (.mul .muE (.const 1)) (.const 2)) (.sub (sqE lampE) (sqE lam0E)))
    (.const 0)

/-- Axial Green-Lagrange strain `e` (line 148). -/
def eE : UExpr :=
  .sub (.mul (.const (1 / 2)) (.sub (.add (sqE lamsE) (sqE lamξE)) (sqE lam0E))) epE

/-- Shear strain `g = λξ` (line 149). -/
def gE : UExpr := lamξE

/-- Bending strain `k = λs·κ + (λs - λ0)·κ0` (line 150), built with the
final (constant) binding of `κ0`. -/
def kE (pi : ℚ) : UExpr :=
  .add (.mul lamsE κE) (.mul (.sub lamsE lam0E) (κ0E pi))

/-- The eight integrands printed per load step (lines 244-252):
`sqrt(λ0**2)`, `sqrt(λs**2 + λξ**2)`, `ep`, `e`, `g`, `k`, `κ`, `κ0`. -/
def diagExprs (pi : ℚ) : List UExpr :=
  [.sqrtE (sqE lam0E), .sqrtE (.add (sqE lamsE) (sqE lamξE)), epE, eE, gE, kE pi, κE, κ0E pi]

/-- Evaluation of an expression that mentions neither the solution state
nor μ is unchanged when only the state and μ parts of the environment
change. -/
theorem evalE_congr_state_mu (itp : Interp) (env env' : PtEnv)
    (hg : env.gx0 = env'.gx0) (hb : env.b0 = env'.b0) :
    ∀ e : UExpr, usesState e = false → usesMu e = false →
      evalE itp env e = evalE itp env' e := by
  intro e
  induction e with
  | const c => intro _ _; rfl
  | muE => intro _ hm; exact absurd hm (by simp [usesMu])
  | geom g =>
    intro _ _
    cases g with
    | gx0 i => simp only [evalE, hg]
    | curvB0 => simp only [evalE, hb]
  | sVar v => intro hs _; exact absurd hs (by simp [usesState])
  | sGrad v => intro hs _; exact absurd hs (by simp [usesState])
  | add a b iha ihb =>
    intro hs hm
    simp only [usesState, Bool.or_eq_false_iff] at hs
    simp only [usesMu, Bool.or_eq_false_iff] at hm
    simp only [evalE, iha hs.1 hm.1, ihb hs.2 hm.2]
  | sub a b iha ihb =>
    intro hs hm
    simp only [usesState, Bool.or_eq_false_iff] at hs
    simp only [usesMu, Bool.or_eq_false_iff] at hm
    simp only [evalE, iha hs.1 hm.1, ihb hs.2 hm.2]
  | mul a b iha ihb =>
    intro hs hm
    simp only [usesState, Bool.or_eq_false_iff] at hs
    simp only [usesMu, Bool.or_eq_false_iff] at hm
    simp only [evalE, iha hs.1 hm.1, ihb hs.2 hm.2]
  | divE a b iha ihb =>
    intro hs hm
    simp only [usesState, Bool.or_eq_false_iff] at hs
    simp only [usesMu, Bool.or_eq_false_iff] at hm
    simp only [evalE, iha hs.1 hm.1, ihb hs.2 hm.2]
  | neg a iha =>
    intro hs hm
    simp only [usesState] at hs
    simp only [usesMu] at hm
    simp only [evalE, iha hs hm]
  | sqrtE a iha =>
    intro hs hm
    simp only [usesState] at hs
    simp only [usesMu] at hm
    simp only [evalE, iha hs hm]
  | sinE a iha =>
    intro hs hm
    simp only [usesState] at hs
    simp only [usesMu] at hm
    simp only [evalE, iha hs hm]
  | cosE a iha =>
    intro hs hm
    simp only [usesState] at hs
    simp only [usesMu] at hm
    simp only [evalE, iha hs hm]

/-- Evaluation of an expression that does not mention the curvature-tensor
atom `B0[0,0]` is unchanged when only that entry of the environment
changes. -/
theorem evalE_congr_b0 (itp : Interp) (env env' : PtEnv)
    (hg : env.gx0 = env'.gx0) (hu : env.uv = env'.uv) (hw : env.wv = env'.wv)
    (hr : env.rv = env'.rv) (hdu : env.duv = env'.duv)
    (hdw : env.dwv = env'.dwv) (hdr : env.drv = env'.drv)
    (hmu : env.muv = env'.muv) :
    ∀ e : UExpr, usesB0 e = false → evalE itp env e = evalE itp env' e := by
  intro e
  induction e with
  | const c => intro _; rfl
  | muE => intro _; simp only [evalE, hmu]
  | geom g =>
    intro hb
    cases g with
    | gx0 i => simp only [evalE, hg]
    | curvB0 => exact absurd hb (by simp [usesB0])
  | sVar v =>
    intro _
    cases v with
    | u => simp only [evalE, hu]
    | w => simp only [evalE, hw]
    | r => simp only [evalE, hr]
  | sGrad v =>
    intro _
    cases v with
    | u => simp only [evalE, hdu]
    | w => simp only [evalE, hdw]
    | r => simp only [evalE, hdr]
  | add a b iha ihb =>
    intro hb0
    simp only [usesB0, Bool.or_eq_false_iff] at hb0
    simp only [evalE, iha hb0.1, ihb hb0.2]
  | sub a b iha ihb =>
    intro hb0
    simp only [usesB0, Bool.or_eq_false_iff] at hb0
    simp only [evalE, iha hb0.1, ihb hb0.2]
  | mul a b iha ihb =>
    intro hb0
    simp only [usesB0, Bool.or_eq_false_iff] at hb0
    simp only [evalE, iha hb0.1, ihb hb0.2]
  | divE a b iha ihb =>
    intro hb0
    simp only [usesB0, Bool.or_eq_false_iff] at hb0
    simp only [evalE, iha hb0.1, ihb hb0.2]
  | neg a iha =>
    intro hb0
    simp only [usesB0] at hb0
    simp only [evalE, iha hb0]
  | sqrtE a iha =>
    intro hb0
    simp only [usesB0] at hb0
    simp only [evalE, iha hb0]
  | sinE a iha =>
    intro hb0
    simp only [usesB0] at hb0
    simp only [evalE, iha hb0]
  | cosE a iha =>
    intro hb0
    simp only [usesB0] at hb0
    simp only [evalE, iha hb0]

/-- The prescribed strain `ep` evaluates to `0` in every environment: the
expression carries a trailing factor `* 0`. -/
theorem evalE_epE (itp : Interp) (env : PtEnv) : evalE itp env epE = 0 := by
  simp [epE, evalE]

/-! Quadrature-sum model of `dolfinx.fem.assemble_scalar(expr * dx)`: the
integral is a weighted sum of the integrand evaluated at quadrature
points.  Each point carries the geometric data; the finite-element state
supplies the values and derivatives of `u, w, r` there. -/

/-- Geometric data at one quadrature point: `GRAD(x0[i])`, the
curvature-tensor entry `B0[0,0]`, and the quadrature weight. -/
structure GeomPt where
  gx0 : Fin 3 → ℚ
  b0 : ℚ
  weight : ℚ

/-- Values and arc-length derivatives of the solution fields `u, w, r`
at one quadrature point. -/
structure StatePt where
  uv : ℚ
  wv : ℚ
  rv : ℚ
  duv : ℚ
  dwv : ℚ
  drv : ℚ

/-- A dolfinx `Function` is zero-initialised at creation. -/
def zeroStatePt : StatePt := ⟨0, 0, 0, 0, 0, 0⟩

def mkEnv (gpt : GeomPt) (s : StatePt) (μv : ℚ) : PtEnv :=
  ⟨gpt.gx0, gpt.b0, s.uv, s.wv, s.rv, s.duv, s.dwv, s.drv, μv⟩

/-- Quadrature rule of the fixed mesh: point count and per-point
geometric data. -/
structure Quad where
  n : ℕ
  pt : ℕ → GeomPt

/-- A solution state: the solution fields sampled at the quadrature
points. -/
def State : Type := ℕ → StatePt

def initState : State := fun _ => zeroStatePt

def assembleScalar (itp : Interp) (Q : Quad) (st : State) (μv : ℚ) (e : UExpr) : ℚ :=
  ((List.range Q.n).map
    (fun i : ℕ => (Q.pt i).weight * evalE itp (mkEnv (Q.pt i) (st i) μv) e)).sum

/-- Total quadrature weight: the measure of the integration domain. -/
def measureQ (Q : Quad) : ℚ := ((List.range Q.n).map (fun i : ℕ => (Q.pt i).weight)).sum

/-- Assembling a constant integrand yields the constant times the domain
measure. -/
theorem assembleScalar_const (itp : Interp) (Q : Quad) (st : State) (μv c : ℚ) :
    assembleScalar itp Q st μv (.const c) = c * measureQ Q := by
  unfold assembleScalar measureQ
  rw [← List.sum_map_mul_left]
  refine congrArg List.sum (List.map_congr_left ?_)
  intro i _
  simp only [evalE]
  ring

/-- Assembly of a state- and μ-free integrand does not depend on the
solution state or the load factor. -/
theorem assembleScalar_state_mu_irrel (itp : Interp) (Q : Quad)
    (st st' : State) (μv μv' : ℚ) (e : UExpr)
    (hs : usesState e = false) (hm : usesMu e = false) :
    assembleScalar itp Q st μv e = assembleScalar itp Q st' μv' e := by
  unfold assembleScalar
  refine congrArg List.sum (List.map_congr_left ?_)
  intro i _
  refine congrArg _ ?_
  exact evalE_congr_state_mu itp (mkEnv (Q.pt i) (st i) μv)
    (mkEnv (Q.pt i) (st' i) μv') rfl rfl e hs hm

/-! The load-stepping driver (lines 211-255), as an event-trace producing
loop over an abstract external solve. -/

/-- A Dirichlet boundary condition, `dolfinx.fem.DirichletBC(value, dofs)`
(lines 231-233): a prescribed-value function over dof indices and the
constrained dof set. -/
structure BC where
  value : ℕ → ℚ
  dofs : List ℕ

/-- Prescribed value `u_left = dolfinx.Function(U)` (line 219): created
once before the loop, zero-initialised, never assigned afterwards. -/
def u_left : ℕ → ℚ := fun _ => 0

/-- Prescribed value `w_left = dolfinx.Function(W)` (line 220). -/
def w_left : ℕ → ℚ := fun _ => 0

/-- Prescribed value `r_left = dolfinx.Function(R)` (line 221). -/
def r_left : ℕ → ℚ := fun _ => 0

/-- Fixed data of a run: the abstract sqrt/sin/cos interpretation, the
float value of `np.pi`, the quadrature rule of the fixed mesh, the
constrained dof sets located once at lines 215-217, and the external
nonlinear solve (`problem.solve()` + `problem.snes.getConvergedReason()`),
which from the previous state, current load factor and boundary
conditions produces a new state and a signed converged reason. -/
structure Ctx where
  itp : Interp
  pi : ℚ
  Q : Quad
  dofsU : List ℕ
  dofsW : List ℕ
  dofsR : List ℕ
  solve : State → ℚ → List BC → State × ℤ

/-- The boundary-condition list rebuilt at lines 230-234 of every
iteration, from the loop-invariant prescribed-value functions and dof
sets; the load factor does not enter. -/
def buildBCs (c : Ctx) : List BC :=
  [⟨u_left, c.dofsU⟩, ⟨w_left, c.dofsW⟩, ⟨r_left, c.dofsR⟩]

/-- The eight scalars printed at lines 244-252, assembled at the current
load factor from the post-solve state. -/
def diagValues (c : Ctx) (μv : ℚ) (st : State) : List ℚ :=
  (diagExprs c.pi).map (assembleScalar c.itp c.Q st μv)

/-- Observable actions of one run of the driver. -/
inductive Event where
  | setMu (μv : ℚ)
  | rebuildBCs (bcs : List BC)
  | solveCall (μv : ℚ) (bcs : List BC)
  | convCheck (reason : ℤ)
  | fatalAbort (reason : ℤ)
  | diagnostics (vals : List ℚ)

/-- One iteration of the load-stepping loop (lines 224-252): set μ to the
current factor, rebuild the boundary conditions, solve, read the SNES
converged reason; if it is positive, print the diagnostics and continue
with the new state, otherwise the `assert` fails and the run aborts. -/
def stepBody (c : Ctx) (st : State) (factor : ℚ) : List Event × Option State :=
  let bcs := buildBCs c
  let res := c.solve st factor bcs
  if 0 < res.2 then
    ([.setMu factor, .rebuildBCs bcs, .solveCall factor bcs, .convCheck res.2,
      .diagnostics (diagValues c factor res.1)], some res.1)
  else
    ([.setMu factor, .rebuildBCs bcs, .solveCall factor bcs, .convCheck res.2,
      .fatalAbort res.2], none)

/-- The load-stepping loop over a list of load factors, threading the
solution state and recording events; an abort stops the loop. -/
def runSteps (c : Ctx) : List ℚ → State → List Event × Option State
  | [], st => ([], some st)
  | f :: fs, st =>
    match stepBody c st f with
    | (evs, none) => (evs, none)
    | (evs, some st') =>
      let r := runSteps c fs st'
      (evs ++ r.1, r.2)

/-- Extraction `u_, w_, r_ = m` of the final solution (lines 254-255). -/
def extract_u (st : State) : ℕ → ℚ := fun i => (st i).uv

/-- Extraction of the second solution field `w_`. -/
def extract_w (st : State) : ℕ → ℚ := fun i => (st i).wv

/-- Extraction of the third solution field `r_`. -/
def extract_r (st : State) : ℕ → ℚ := fun i => (st i).rv

/-- Load factors at which the solve was invoked, in order. -/
def solveFactors (evs : List Event) : List ℚ :=
  evs.filterMap fun e => match e with
    | .solveCall f _ => some f
    | _ => none

/-- Values the shared load-factor constant μ was set to, in order. -/
def setMuFactors (evs : List Event) : List ℚ :=
  evs.filterMap fun e => match e with
    | .setMu f => some f
    | _ => none

/-- Boundary-condition lists recorded at the rebuild events, in order. -/
def rebuiltBCs (evs : List Event) : List (List BC) :=
  evs.filterMap fun e => match e with
    | .rebuildBCs b => some b
    | _ => none

/-- Diagnostic value lists emitted, in order (one per converged step). -/
def diagEmitted (evs : List Event) : List (List ℚ) :=
  evs.filterMap fun e => match e with
    | .diagnostics v => some v
    | _ => none

/-- Closed form of one loop iteration when the solver converges. -/
theorem stepBody_pos (c : Ctx) (st : State) (factor : ℚ)
    (h : 0 < (c.solve st factor (buildBCs c)).2) :
    stepBody c st factor =
      ([.setMu factor, .rebuildBCs (buildBCs c),
        .solveCall factor (buildBCs c),
        .convCheck (c.solve st factor (buildBCs c)).2,
        .diagnostics (diagValues c factor (c.solve st factor (buildBCs c)).1)],
       some (c.solve st factor (buildBCs c)).1) := by
  simp only [stepBody]
  rw [if_pos h]

/-- Closed form of one loop iteration in the non-converged case: the
assertion fails. -/
theorem stepBody_nonpos (c : Ctx) (st : State) (factor : ℚ)
    (h : (c.solve st factor (buildBCs c)).2 ≤ 0) :
    stepBody c st factor =
      ([.setMu factor, .rebuildBCs (buildBCs c),
        .solveCall factor (buildBCs c),
        .convCheck (c.solve st factor (buildBCs c)).2,
        .fatalAbort (c.solve st factor (buildBCs c)).2],
       none) := by
  simp only [stepBody]
  rw [if_neg (by omega)]

theorem runSteps_cons_none (c : Ctx) (f : ℚ) (fs : List ℚ) (st : State)
    (bevs : List Event) (h : stepBody c st f = (bevs, none)) :
    runSteps c (f :: fs) st = (bevs, none) := by
  simp [runSteps, h]

theorem runSteps_cons_some (c : Ctx) (f : ℚ) (fs : List ℚ) (st : State)
    (bevs : List Event) (st1 : State) (h : stepBody c st f = (bevs, some st1)) :
    runSteps c (f :: fs) st
      = (bevs ++ (runSteps c fs st1).1, (runSteps c fs st1).2) := by
  simp [runSteps, h]

/-- Splitting a run at an abort: once a prefix aborts, the remaining
factors contribute nothing. -/
theorem runSteps_append_of_none (c : Ctx) (l1 l2 : List ℚ) :
    ∀ (st : State) (evs : List Event),
      runSteps c l1 st = (evs, none) →
      runSteps c (l1 ++ l2) st = (evs, none) := by
  induction l1 with
  | nil =>
    intro st evs h
    simp [runSteps] at h
  | cons f fs ih =>
    intro st evs h
    cases hsb : stepBody c st f with
    | mk bevs os =>
      cases os with
      | none =>
        rw [runSteps_cons_none c f fs st bevs hsb] at h
        injection h with h1 h2
        subst h1
        rw [List.cons_append]
        exact runSteps_cons_none c f (fs ++ l2) st bevs hsb
      | some st1 =>
        rw [runSteps_cons_some c f fs st bevs st1 hsb] at h
        injection h with h1 h2
        rw [List.cons_append, runSteps_cons_some c f (fs ++ l2) st bevs st1 hsb]
        cases hr : runSteps c fs st1 with
        | mk revs ros =>
          rw [hr] at h1 h2
          simp only at h1 h2
          subst h2
          rw [ih st1 revs hr]
          simp [← h1]

/-- Splitting a run at a successful prefix. -/
theorem runSteps_append_of_some (c : Ctx) (l1 l2 : List ℚ) :
    ∀ (st : State) (evs : List Event) (st' : State),
      runSteps c l1 st = (evs, some st') →
      runSteps c (l1 ++ l2) st =
        (evs ++ (runSteps c l2 st').1, (runSteps c l2 st').2) := by
  induction l1 with
  | nil =>
    intro st evs st' h
    simp only [runSteps] at h
    injection h with h1 h2
    injection h2 with h2
    subst h1
    subst h2
    simp
  | cons f fs ih =>
    intro st evs st' h
    cases hsb : stepBody c st f with
    | mk bevs os =>
      cases os with
      | none =>
        rw [runSteps_cons_none c f fs st bevs hsb] at h
        injection h with h1 h2
        simp at h2
      | some st1 =>
        rw [runSteps_cons_some c f fs st bevs st1 hsb] at h
        injection h with h1 h2
        rw [List.cons_append, runSteps_cons_some c f (fs ++ l2) st bevs st1 hsb]
        cases hr : runSteps c fs st1 with
        | mk revs ros =>
          rw [hr] at h1 h2
          simp only at h1 h2
          subst h2
          rw [ih st1 revs st' hr]
          simp [← h1]

/-- When every solve reports a positive converged reason, the driver
completes the whole factor list: it returns a final state, solves once per
factor in order, sets μ once per factor in order, and rebuilds the same
boundary conditions once per factor. -/
theorem runSteps_all_pos (c : Ctx)
    (hc : ∀ (st : State) (f : ℚ), 0 < (c.solve st f (buildBCs c)).2) :
    ∀ (l : List ℚ) (st : State),
      (runSteps c l st).2.isSome = true ∧
      solveFactors (runSteps c l st).1 = l ∧
      setMuFactors (runSteps c l st).1 = l ∧
      rebuiltBCs (runSteps c l st).1 = l.map (fun _ => buildBCs c) := by
  intro l
  induction l with
  | nil =>
    intro st
    simp [runSteps, solveFactors, setMuFactors, rebuiltBCs]
  | cons f fs ih =>
    intro st
    have hsb := stepBody_pos c st f (hc st f)
    rw [runSteps_cons_some c f fs st _ _ hsb]
    obtain ⟨ih1, ih2, ih3, ih4⟩ := ih (c.solve st f (buildBCs c)).1
    refine ⟨by simpa using ih1, ?_, ?_, ?_⟩
    · simp only [solveFactors, List.filterMap_append] at ih2 ⊢
      simp [ih2]
    · simp only [setMuFactors, List.filterMap_append] at ih3 ⊢
      simp [ih3]
    · simp only [rebuiltBCs, List.filterMap_append] at ih4 ⊢
      simp [ih4]

/-- Every boundary-condition list recorded at a rebuild event is the one
built from the loop-invariant data. -/
theorem mem_rebuiltBCs_runSteps (c : Ctx) :
    ∀ (l : List ℚ) (st : State) (b : List BC),
      Event.rebuildBCs b ∈ (runSteps c l st).1 → b = buildBCs c := by
  intro l
  induction l with
  | nil => intro st b h; simp [runSteps] at h
  | cons f fs ih =>
    intro st b h
    by_cases hpos : 0 < (c.solve st f (buildBCs c)).2
    · rw [runSteps_cons_some c f fs st _ _ (stepBody_pos c st f hpos)] at h
      rcases List.mem_append.1 h with hblk | hrest
      · simp at hblk
        exact hblk
      · exact ih _ b hrest
    · rw [runSteps_cons_none c f fs st _
        (stepBody_nonpos c st f (by omega))] at h
      simp at h
      exact h

/-- Every solve invocation recorded in a trace received the
boundary-condition list built from the loop-invariant data. -/
theorem mem_solveCall_runSteps (c : Ctx) :
    ∀ (l : List ℚ) (st : State) (μv : ℚ) (b : List BC),
      Event.solveCall μv b ∈ (runSteps c l st).1 → b = buildBCs c := by
  intro l
  induction l with
  | nil => intro st μv b h; simp [runSteps] at h
  | cons f fs ih =>
    intro st μv b h
    by_cases hpos : 0 < (c.solve st f (buildBCs c)).2
    · rw [runSteps_cons_some c f fs st _ _ (stepBody_pos c st f hpos)] at h
      rcases List.mem_append.1 h with hblk | hrest
      · simp at hblk
        exact hblk.2
      · exact ih _ μv b hrest
    · rw [runSteps_cons_none c f fs st _
        (stepBody_nonpos c st f (by omega))] at h
      simp at h
      exact h.2

/-- Every diagnostics event in a trace carries the list of assembled
diagnostic scalars for some load factor and post-solve state. -/
theorem mem_diagnostics_runSteps (c : Ctx) :
    ∀ (l : List ℚ) (st : State) (vals : List ℚ),
      Event.diagnostics vals ∈ (runSteps c l st).1 →
      ∃ (μv : ℚ) (stp : State), vals = diagValues c μv stp := by
  intro l
  induction l with
  | nil => intro st vals h; simp [runSteps] at h
  | cons f fs ih =>
    intro st vals h
    by_cases hpos : 0 < (c.solve st f (buildBCs c)).2
    · rw [runSteps_cons_some c f fs st _ _ (stepBody_pos c st f hpos)] at h
      rcases List.mem_append.1 h with hblk | hrest
      · simp at hblk
        exact ⟨f, (c.solve st f (buildBCs c)).1, hblk⟩
      · exact ih _ vals hrest
    · rw [runSteps_cons_none c f fs st _
        (stepBody_nonpos c st f (by omega))] at h
      simp at h

/-- Concrete context whose solve always reports converged reason 1. -/
def ctxConv : Ctx where
  itp := ⟨id, id, id⟩
  pi := 3
  Q := ⟨0, fun _ => ⟨fun _ => 0, 0, 0⟩⟩
  dofsU := []
  dofsW := []
  dofsR := []
  solve := fun st _ _ => (st, 1)

/-- Concrete context whose solve always reports diverged reason -3. -/
def ctxBad : Ctx where
  itp := ⟨id, id, id⟩
  pi := 3
  Q := ⟨0, fun _ => ⟨fun _ => 0, 0, 0⟩⟩
  dofsU := []
  dofsW := []
  dofsR := []
  solve := fun st _ _ => (st, -3)

/-- C4: within each loop iteration the operations occur in this order:
the shared load-factor state μ is mutated exactly once, set to the current
sequence value; then the boundary-condition set is rebuilt; then the
nonlinear solve is invoked; then the convergence indicator is checked; and
the scalar diagnostics are computed and emitted only after the solve has
been confirmed converged. -/
theorem claim_C4 (c : Ctx) (st : State) (factor : ℚ) :
    (stepBody c st factor).1 =
      [.setMu factor, .rebuildBCs (buildBCs c), .solveCall factor (buildBCs c),
       .convCheck (c.solve st factor (buildBCs c)).2] ++
      (if 0 < (c.solve st factor (buildBCs c)).2
       then [.diagnostics (diagValues c factor (c.solve st factor (buildBCs c)).1)]
       else [.fatalAbort (c.solve st factor (buildBCs c)).2]) ∧
    setMuFactors (stepBody c st factor).1 = [factor] := by
  by_cases hpos : 0 < (c.solve st factor (buildBCs c)).2
  · rw [stepBody_pos c st factor hpos]
    rw [if_pos hpos]
    exact ⟨rfl, by simp [setMuFactors]⟩
  · rw [stepBody_nonpos c st factor (by omega)]
    rw [if_neg hpos]
    exact ⟨rfl, by simp [setMuFactors]⟩

/-- C8: every external load amplitude constant (`p_1, p_3, m_2, F_1, F_3,
M_2`) and the prescribed strain `ep` are constructed as zero (each carries
a factor `* 0` at definition), so for every load factor μ the μ-scaled load
terms of the weak form vanish identically and the residual reduces to the
internal-energy terms. -/
theorem claim_C8 :
    p_1 = 0 ∧ p_3 = 0 ∧ m_2 = 0 ∧
    (∀ pi : ℚ, F_1 pi = 0 ∧ F_3 pi = 0 ∧ M_2 pi = 0) ∧
    (∀ (itp : Interp) (env : PtEnv), evalE itp env epE = 0) ∧
    (∀ pi μv δeN δgT δkM x1 x2 x3 y1 y2 y3 : ℚ,
       weakForm pi μv δeN δgT δkM x1 x2 x3 y1 y2 y3 = - δeN - δgT - δkM) := by
  refine ⟨by norm_num [p_1], by norm_num [p_3], by norm_num [m_2], ?_, ?_, ?_⟩
  · intro pi
    refine ⟨?_, ?_, ?_⟩ <;> simp [F_1, F_3, M_2]
  · intro itp env
    exact evalE_epE itp env
  · intro pi μv δeN δgT δkM x1 x2 x3 y1 y2 y3
    simp [weakForm, p_1, p_3, m_2, F_1, F_3, M_2]

/-- C1: the load-stepping driver iterates over exactly 201 load-factor
values, forming an equally spaced, strictly increasing sequence from 0 to
1 inclusive of both endpoints, and invokes the external nonlinear solve
exactly once per value — 201 solves in total — when every solve
converges. -/
theorem claim_C1 (c : Ctx)
    (hc : ∀ (st : State) (f : ℚ), 0 < (c.solve st f (buildBCs c)).2) :
    (linspace 0 1 201).length = 201 ∧
    (linspace 0 1 201).Pairwise (· < ·) ∧
    (linspace 0 1 201).Chain' (fun x y => y = x + 1 / 200) ∧
    (0 : ℚ) ∈ linspace 0 1 201 ∧ (1 : ℚ) ∈ linspace 0 1 201 ∧
    (∀ x ∈ linspace 0 1 201, 0 ≤ x ∧ x ≤ 1) ∧
    solveFactors (runSteps c (linspace 0 1 201) initState).1 = linspace 0 1 201 ∧
    (solveFactors (runSteps c (linspace 0 1 201) initState).1).length = 201 ∧
    (runSteps c (linspace 0 1 201) initState).2.isSome = true := by
  obtain ⟨h1, h2, _, _⟩ := runSteps_all_pos c hc (linspace 0 1 201) initState
  have hsp := linspace01_equally_spaced 201 (by norm_num)
  norm_num at hsp
  exact ⟨linspace_length 0 1 201, linspace01_pairwise_lt 201, hsp,
    linspace01_zero_mem (by norm_num), linspace01_one_mem (by norm_num),
    linspace01_mem_bounds 201, h2, by rw [h2]; exact linspace_length 0 1 201, h1⟩

/-- C1 witness: a context whose solve always converges satisfies the
hypothesis, and the driver then performs the 201 solves as stated. -/
theorem claim_C1_witness :
    (∀ (st : State) (f : ℚ), 0 < (ctxConv.solve st f (buildBCs ctxConv)).2) ∧
    ((linspace 0 1 201).length = 201 ∧
     (linspace 0 1 201).Pairwise (· < ·) ∧
     (linspace 0 1 201).Chain' (fun x y => y = x + 1 / 200) ∧
     (0 : ℚ) ∈ linspace 0 1 201 ∧ (1 : ℚ) ∈ linspace 0 1 201 ∧
     (∀ x ∈ linspace 0 1 201, 0 ≤ x ∧ x ≤ 1) ∧
     solveFactors (runSteps ctxConv (linspace 0 1 201) initState).1
       = linspace 0 1 201 ∧
     (solveFactors (runSteps ctxConv (linspace 0 1 201) initState).1).length
       = 201 ∧
     (runSteps ctxConv (linspace 0 1 201) initState).2.isSome = true) :=
  ⟨fun _ _ => by norm_num [ctxConv],
   claim_C1 ctxConv (fun _ _ => by norm_num [ctxConv])⟩

/-- C3 counterexample: the step count n = 1 is admissible under the claim
(n ≥ 1, configurable), but `np.linspace(0, 1, num=1)` is `[0]`: the
endpoint 1 is not attained, so the factor values do not cover `[0, 1]`
inclusive of both endpoints. -/
theorem claim_C3_counterexample :
    (1 : ℕ) ≥ 1 ∧ linspace 0 1 1 = [0] ∧ ¬ (1 : ℚ) ∈ linspace 0 1 1 := by
  refine ⟨le_refl 1, linspace_one 0 1, ?_⟩
  rw [linspace_one 0 1]
  norm_num

/-- C3 as amended: for every step count n ≥ 1 the driver (with every solve
converging) invokes the external solve exactly n times, at the values of
`linspace 0 1 n` in order; that sequence is strictly increasing, lies in
`[0, 1]` and starts at 0; it is equally spaced with both endpoints
attained whenever n ≥ 2, while for n = 1 it is the single value 0. -/
theorem claim_C3_amended (c : Ctx) (n : ℕ) (h1 : 1 ≤ n)
    (hc : ∀ (st : State) (f : ℚ), 0 < (c.solve st f (buildBCs c)).2) :
    solveFactors (runSteps c (linspace 0 1 n) initState).1 = linspace 0 1 n ∧
    (solveFactors (runSteps c (linspace 0 1 n) initState).1).length = n ∧
    (linspace 0 1 n).Pairwise (· < ·) ∧
    (∀ x ∈ linspace 0 1 n, 0 ≤ x ∧ x ≤ 1) ∧
    (0 : ℚ) ∈ linspace 0 1 n ∧
    (2 ≤ n → (1 : ℚ) ∈ linspace 0 1 n ∧
      (linspace 0 1 n).Chain' (fun x y => y = x + 1 / ((n : ℚ) - 1))) ∧
    (n = 1 → linspace 0 1 n = [0]) ∧
    (runSteps c (linspace 0 1 n) initState).2.isSome = true := by
  obtain ⟨g1, g2, _, _⟩ := runSteps_all_pos c hc (linspace 0 1 n) initState
  refine ⟨g2, by rw [g2]; exact linspace_length 0 1 n,
    linspace01_pairwise_lt n, linspace01_mem_bounds n,
    linspace01_zero_mem h1, ?_, ?_, g1⟩
  · intro h2
    exact ⟨linspace01_one_mem h2, linspace01_equally_spaced n h2⟩
  · intro hn
    subst hn
    exact linspace_one 0 1

/-- C3 witness: the amended statement instantiated at the degenerate
single-step count n = 1 with an always-converging solver. -/
theorem claim_C3_amended_witness :
    (1 ≤ 1 ∧ ∀ (st : State) (f : ℚ),
        0 < (ctxConv.solve st f (buildBCs ctxConv)).2) ∧
    (solveFactors (runSteps ctxConv (linspace 0 1 1) initState).1
        = linspace 0 1 1 ∧
     (solveFactors (runSteps ctxConv (linspace 0 1 1) initState).1).length = 1 ∧
     (linspace 0 1 1).Pairwise (· < ·) ∧
     (∀ x ∈ linspace 0 1 1, 0 ≤ x ∧ x ≤ 1) ∧
     (0 : ℚ) ∈ linspace 0 1 1 ∧
     (2 ≤ 1 → (1 : ℚ) ∈ linspace 0 1 1 ∧
       (linspace 0 1 1).Chain' (fun x y => y = x + 1 / ((1 : ℚ) - 1))) ∧
     (1 = 1 → linspace 0 1 1 = [0]) ∧
     (runSteps ctxConv (linspace 0 1 1) initState).2.isSome = true) :=
  ⟨⟨le_refl 1, fun _ _ => by norm_num [ctxConv]⟩,
   claim_C3_amended ctxConv 1 (le_refl 1) (fun _ _ => by norm_num [ctxConv])⟩

/-- C2: after every solve the convergence indicator is checked; if it is
non-positive at step k the run aborts immediately with the fatal
assertion, no solve for any later step occurs, and there is no retry or
partial acceptance: the trace ends at the abort, the only additional solve
is the failing one, and no final state is produced. -/
theorem claim_C2 (c : Ctx) (pre : List ℚ) (f : ℚ) (rest : List ℚ)
    (st : State) (T : List Event) (stK : State)
    (hpre : runSteps c pre st = (T, some stK))
    (hfail : (c.solve stK f (buildBCs c)).2 ≤ 0) :
    runSteps c (pre ++ f :: rest) st =
      (T ++ [.setMu f, .rebuildBCs (buildBCs c), .solveCall f (buildBCs c),
             .convCheck (c.solve stK f (buildBCs c)).2,
             .fatalAbort (c.solve stK f (buildBCs c)).2], none) ∧
    solveFactors (runSteps c (pre ++ f :: rest) st).1 = solveFactors T ++ [f] := by
  have hrun : runSteps c (f :: rest) stK =
      ([.setMu f, .rebuildBCs (buildBCs c), .solveCall f (buildBCs c),
        .convCheck (c.solve stK f (buildBCs c)).2,
        .fatalAbort (c.solve stK f (buildBCs c)).2], none) :=
    runSteps_cons_none c f rest stK _ (stepBody_nonpos c stK f hfail)
  have happ := runSteps_append_of_some c pre (f :: rest) st T stK hpre
  rw [hrun] at happ
  constructor
  · exact happ
  · rw [happ]
    simp [solveFactors, List.filterMap_append]

/-- C2 witness: a divergent solver at the first factor aborts the run at
once, with no solve for the remaining factor. -/
theorem claim_C2_witness :
    (runSteps ctxBad ([] : List ℚ) initState = ([], some initState) ∧
     (ctxBad.solve initState 0 (buildBCs ctxBad)).2 ≤ 0) ∧
    (runSteps ctxBad ([] ++ 0 :: [1]) initState =
      ([] ++ [.setMu 0, .rebuildBCs (buildBCs ctxBad), .solveCall 0 (buildBCs ctxBad),
              .convCheck (ctxBad.solve initState 0 (buildBCs ctxBad)).2,
              .fatalAbort (ctxBad.solve initState 0 (buildBCs ctxBad)).2], none) ∧
     solveFactors (runSteps ctxBad ([] ++ 0 :: [1]) initState).1
       = solveFactors [] ++ [0]) :=
  ⟨⟨rfl, by norm_num [ctxBad]⟩,
   claim_C2 ctxBad [] 0 [1] initState [] initState rfl (by norm_num [ctxBad])⟩

/-- C5: the boundary-condition set is rebuilt on every one of the 201
iterations, but does not depend on the load factor: every rebuilt list —
and every list passed to the solver — is the single list built from the
loop-invariant dof sets and prescribed-value functions. -/
theorem claim_C5 (c : Ctx)
    (hc : ∀ (st : State) (f : ℚ), 0 < (c.solve st f (buildBCs c)).2) :
    rebuiltBCs (runSteps c (linspace 0 1 201) initState).1
        = (linspace 0 1 201).map (fun _ => buildBCs c) ∧
    (rebuiltBCs (runSteps c (linspace 0 1 201) initState).1).length = 201 ∧
    (∀ b ∈ rebuiltBCs (runSteps c (linspace 0 1 201) initState).1,
       b = buildBCs c) ∧
    (∀ (μv : ℚ) (b : List BC),
       Event.solveCall μv b ∈ (runSteps c (linspace 0 1 201) initState).1 →
       b = buildBCs c) := by
  obtain ⟨_, _, _, h4⟩ := runSteps_all_pos c hc (linspace 0 1 201) initState
  refine ⟨h4, ?_, ?_, ?_⟩
  · rw [h4]
    rw [List.length_map, linspace_length]
  · intro b hb
    rw [h4] at hb
    rcases List.mem_map.1 hb with ⟨x, _, hxb⟩
    exact hxb.symm
  · intro μv b hmem
    exact mem_solveCall_runSteps c _ _ μv b hmem

/-- C5 witness: the statement instantiated with an always-converging
solver. -/
theorem claim_C5_witness :
    (∀ (st : State) (f : ℚ), 0 < (ctxConv.solve st f (buildBCs ctxConv)).2) ∧
    (rebuiltBCs (runSteps ctxConv (linspace 0 1 201) initState).1
        = (linspace 0 1 201).map (fun _ => buildBCs ctxConv) ∧
     (rebuiltBCs (runSteps ctxConv (linspace 0 1 201) initState).1).length
        = 201 ∧
     (∀ b ∈ rebuiltBCs (runSteps ctxConv (linspace 0 1 201) initState).1,
        b = buildBCs ctxConv) ∧
     (∀ (μv : ℚ) (b : List BC),
        Event.solveCall μv b ∈ (runSteps ctxConv (linspace 0 1 201) initState).1 →
        b = buildBCs ctxConv)) :=
  ⟨fun _ _ => by norm_num [ctxConv],
   claim_C5 ctxConv (fun _ _ => by norm_num [ctxConv])⟩

/-- Reference value of the `L0` diagnostic: the assembled value of
`sqrt(λ0**2)` at the zero-initialised state and zero load factor. -/
def L0ref (c : Ctx) : ℚ :=
  assembleScalar c.itp c.Q initState 0 (.sqrtE (sqE lam0E))

/-- C6: the integrand `sqrt(λ0**2)` of the `L0` diagnostic is defined
purely from the undeformed geometry — it mentions neither the solution
state nor μ — so the emitted `L0` value is the same fixed number at every
load step; in particular the value at step 0 equals the value at the final
step. -/
theorem claim_C6 (c : Ctx) (l : List ℚ) (st : State) :
    usesState (.sqrtE (sqE lam0E)) = false ∧
    usesMu (.sqrtE (sqE lam0E)) = false ∧
    (∀ vals, Event.diagnostics vals ∈ (runSteps c l st).1 →
       vals.head? = some (L0ref c)) := by
  refine ⟨rfl, rfl, ?_⟩
  intro vals hmem
  obtain ⟨μv, stp, rfl⟩ := mem_diagnostics_runSteps c l st vals hmem
  have hhead : (diagValues c μv stp).head? =
      some (assembleScalar c.itp c.Q stp μv (.sqrtE (sqE lam0E))) := by
    simp [diagValues, diagExprs]
  rw [hhead]
  exact congrArg some
    (assembleScalar_state_mu_irrel c.itp c.Q stp initState μv 0 _ rfl rfl)

/-- C6 witness: the first diagnostics event of a concrete converging run
carries the reference `L0` value in head position. -/
theorem claim_C6_witness :
    Event.diagnostics (diagValues ctxConv 0 initState)
        ∈ (runSteps ctxConv [0] initState).1 ∧
    (diagValues ctxConv 0 initState).head? = some (L0ref ctxConv) := by
  have hm : Event.diagnostics (diagValues ctxConv 0 initState)
      ∈ (runSteps ctxConv [0] initState).1 := by
    rw [runSteps_cons_some ctxConv 0 [] initState _ _
      (stepBody_pos ctxConv initState 0 (by norm_num [ctxConv]))]
    have hsolve : (ctxConv.solve initState 0 (buildBCs ctxConv)).1 = initState := rfl
    rw [hsolve]
    simp [runSteps]
  exact ⟨hm, (claim_C6 ctxConv [0] initState).2.2 _ hm⟩

/-- C7: when the run over the whole factor list succeeds, the final state
— the `m` that is unpacked as `u_, w_, r_ = m` and passed to interpolation
and plotting — is exactly the solution returned by the solve at the last
load-factor value. -/
theorem claim_C7 (c : Ctx) (fs : List ℚ) (f : ℚ) (evs : List Event)
    (stF : State)
    (h : runSteps c (fs ++ [f]) initState = (evs, some stF)) :
    ∃ (stPrev : State) (evsPrev : List Event),
      runSteps c fs initState = (evsPrev, some stPrev) ∧
      stF = (c.solve stPrev f (buildBCs c)).1 ∧
      extract_u stF = extract_u (c.solve stPrev f (buildBCs c)).1 ∧
      extract_w stF = extract_w (c.solve stPrev f (buildBCs c)).1 ∧
      extract_r stF = extract_r (c.solve stPrev f (buildBCs c)).1 := by
  cases hpre : runSteps c fs initState with
  | mk pevs pos =>
    cases pos with
    | none =>
      rw [runSteps_append_of_none c fs [f] initState pevs hpre] at h
      injection h with h1 h2
      cases h2
    | some stPrev =>
      have happ := runSteps_append_of_some c fs [f] initState pevs stPrev hpre
      by_cases hpos : 0 < (c.solve stPrev f (buildBCs c)).2
      · have hsingle : runSteps c [f] stPrev
            = ([.setMu f, .rebuildBCs (buildBCs c), .solveCall f (buildBCs c),
                .convCheck (c.solve stPrev f (buildBCs c)).2,
                .diagnostics (diagValues c f (c.solve stPrev f (buildBCs c)).1)],
               some (c.solve stPrev f (buildBCs c)).1) := by
          rw [runSteps_cons_some c f [] stPrev _ _ (stepBody_pos c stPrev f hpos)]
          simp [runSteps]
        rw [hsingle] at happ
        rw [happ] at h
        injection h with h1 h2
        injection h2 with h2
        exact ⟨stPrev, pevs, rfl, h2.symm,
          by rw [← h2], by rw [← h2], by rw [← h2]⟩
      · have hsingle : runSteps c [f] stPrev
            = ([.setMu f, .rebuildBCs (buildBCs c), .solveCall f (buildBCs c),
                .convCheck (c.solve stPrev f (buildBCs c)).2,
                .fatalAbort (c.solve stPrev f (buildBCs c)).2], none) :=
          runSteps_cons_none c f [] stPrev _
            (stepBody_nonpos c stPrev f (by omega))
        rw [hsingle] at happ
        rw [happ] at h
        injection h with h1 h2
        cases h2

/-- C7 witness: a concrete single-step converging run returns the state
produced by the solve at the last (only) factor. -/
theorem claim_C7_witness :
    runSteps ctxConv ([] ++ [0]) initState
      = ([.setMu 0, .rebuildBCs (buildBCs ctxConv), .solveCall 0 (buildBCs ctxConv),
          .convCheck 1, .diagnostics (diagValues ctxConv 0 initState)],
         some initState) ∧
    (∃ (stPrev : State) (evsPrev : List Event),
      runSteps ctxConv [] initState = (evsPrev, some stPrev) ∧
      initState = (ctxConv.solve stPrev 0 (buildBCs ctxConv)).1 ∧
      extract_u initState = extract_u (ctxConv.solve stPrev 0 (buildBCs ctxConv)).1 ∧
      extract_w initState = extract_w (ctxConv.solve stPrev 0 (buildBCs ctxConv)).1 ∧
      extract_r initState = extract_r (ctxConv.solve stPrev 0 (buildBCs ctxConv)).1) := by
  have hrun : runSteps ctxConv ([] ++ [0]) initState
      = ([.setMu 0, .rebuildBCs (buildBCs ctxConv), .solveCall 0 (buildBCs ctxConv),
          .convCheck 1, .diagnostics (diagValues ctxConv 0 initState)],
         some initState) := by
    rw [List.nil_append]
    rw [runSteps_cons_some ctxConv 0 [] initState _ _
      (stepBody_pos ctxConv initState 0 (by norm_num [ctxConv]))]
    have hsolve : ctxConv.solve initState 0 (buildBCs ctxConv) = (initState, 1) := rfl
    rw [hsolve]
    simp [runSteps]
  exact ⟨hrun, claim_C7 ctxConv [] 0 _ initState hrun⟩

/-- C9: the `κ0` used in the bending strain `k` and in the per-step `κ0`
diagnostic is the constant `-2·π` of line 141: the geometrically derived
curvature (line 122, with the sign TODO) is overwritten before the weak
form is built, `k` is independent of the curvature-tensor atom, and the
printed `∫ κ0 dx` diagnostic equals `-2·π` times the domain measure at
every load step. -/
theorem claim_C9 (c : Ctx) (l : List ℚ) (st : State) :
    κ0E c.pi = UExpr.const (-2 * c.pi) ∧
    usesB0 (kE c.pi) = false ∧
    (∀ (itp : Interp) (env env' : PtEnv),
       env.gx0 = env'.gx0 → env.uv = env'.uv → env.wv = env'.wv →
       env.rv = env'.rv → env.duv = env'.duv → env.dwv = env'.dwv →
       env.drv = env'.drv → env.muv = env'.muv →
       evalE itp env (kE c.pi) = evalE itp env' (kE c.pi)) ∧
    (∀ vals, Event.diagnostics vals ∈ (runSteps c l st).1 →
       vals[7]? = some (-2 * c.pi * measureQ c.Q)) := by
  refine ⟨rfl, rfl, ?_, ?_⟩
  · intro itp env env' hg hu hw hr hdu hdw hdr hmu
    exact evalE_congr_b0 itp env env' hg hu hw hr hdu hdw hdr hmu (kE c.pi) rfl
  · intro vals hmem
    obtain ⟨μv, stp, rfl⟩ := mem_diagnostics_runSteps c l st vals hmem
    have h7 : (diagValues c μv stp)[7]? =
        some (assembleScalar c.itp c.Q stp μv (κ0E c.pi)) := by
      simp [diagValues, diagExprs]
    rw [h7, show κ0E c.pi = UExpr.const (-2 * c.pi) from rfl,
      assembleScalar_const]

/-- C9 witness: the diagnostics event of a concrete converging run carries
`-2·π` times the domain measure in the eighth position. -/
theorem claim_C9_witness :
    Event.diagnostics (diagValues ctxConv 0 initState)
        ∈ (runSteps ctxConv [0] initState).1 ∧
    (diagValues ctxConv 0 initState)[7]?
        = some (-2 * ctxConv.pi * measureQ ctxConv.Q) := by
  have hm : Event.diagnostics (diagValues ctxConv 0 initState)
      ∈ (runSteps ctxConv [0] initState).1 := by
    rw [runSteps_cons_some ctxConv 0 [] initState _ _
      (stepBody_pos ctxConv initState 0 (by norm_num [ctxConv]))]
    have hsolve : (ctxConv.solve initState 0 (buildBCs ctxConv)).1 = initState := rfl
    rw [hsolve]
    simp [runSteps]
  exact ⟨hm, (claim_C9 ctxConv [0] initState).2.2.2 _ hm⟩

/-- C10: the prescribed Dirichlet values at the `beg` boundary are
identically zero at every load step: the three prescribed-value functions
are the zero-initialised functions created once before the loop, so every
solve receives homogeneous boundary conditions on displacement and
rotation at the left end. -/
theorem claim_C10 (c : Ctx) (l : List ℚ) (st : State) :
    (∀ d : ℕ, u_left d = 0 ∧ w_left d = 0 ∧ r_left d = 0) ∧
    (∀ bc ∈ buildBCs c, ∀ d : ℕ, bc.value d = 0) ∧
    (∀ (μv : ℚ) (b : List BC),
       Event.solveCall μv b ∈ (runSteps c l st).1 →
       ∀ bc ∈ b, ∀ d : ℕ, bc.value d = 0) := by
  have hbc : ∀ bc ∈ buildBCs c, ∀ d : ℕ, bc.value d = 0 := by
    intro bc hmem d
    simp only [buildBCs, List.mem_cons, List.not_mem_nil, or_false] at hmem
    rcases hmem with h | h | h <;> subst h <;> rfl
  refine ⟨fun d => ⟨rfl, rfl, rfl⟩, hbc, ?_⟩
  intro μv b hmem bc hbcb d
  have hb := mem_solveCall_runSteps c l st μv b hmem
  subst hb
  exact hbc bc hbcb d

/-- C10 witness: the boundary conditions passed to the solve of a concrete
run prescribe the value zero at every dof. -/
theorem claim_C10_witness :
    Event.solveCall 0 (buildBCs ctxConv) ∈ (runSteps ctxConv [0] initState).1 ∧
    (∀ bc ∈ buildBCs ctxConv, ∀ d : ℕ, bc.value d = 0) := by
  have hm : Event.solveCall 0 (buildBCs ctxConv)
      ∈ (runSteps ctxConv [0] initState).1 := by
    rw [runSteps_cons_some ctxConv 0 [] initState _ _
      (stepBody_pos ctxConv initState 0 (by norm_num [ctxConv]))]
    simp
  exact ⟨hm, fun bc hbc d =>
    (claim_C10 ctxConv [0] initState).2.2 0 (buildBCs ctxConv) hm bc hbc d⟩
